import Mathlib

/-!
Verification of the ggconfig code generator and its runtime.

The definitions below are a shallow embedding of the Go sources:
the generator (signature extraction, alias parsing, identifier
derivation) and the bodies of the adapter methods emitted by the
unified template, plus the YAML runtime helpers.  Go strings are
modelled as Lean strings (exact for the ASCII data handled here),
Go ints as mathematical integers with explicit 64-bit range checks
where the source has them, and the process environment as a total
function from key to value where the empty string means "unset"
(as os.Getenv reports).
-/

namespace GGConfig

/-- Model of strconv.Atoi step 1: value of a nonempty all-digit run,
accumulated left to right. -/
def digitsToNat : List Char → Nat → Option Nat
  | [], acc => some acc
  | c :: rest, acc =>
    if '0' ≤ c ∧ c ≤ '9' then digitsToNat rest (acc * 10 + (c.toNat - '0'.toNat))
    else none

/-- Digits of the number part of an Atoi input: must be nonempty. -/
def parseDigits (cs : List Char) : Option Nat :=
  match cs with
  | [] => none
  | cs => digitsToNat cs 0

/-- Model of Go strconv.Atoi: optional sign, then one or more ASCII
digits, nothing else; the value must fit a 64-bit signed int (Go int
on a 64-bit platform), otherwise an error.  `none` models err != nil. -/
def goAtoi (s : String) : Option Int :=
  let signAndDigits : Bool × List Char :=
    match s.toList with
    | '+' :: rest => (false, rest)
    | '-' :: rest => (true, rest)
    | cs => (false, cs)
  match parseDigits signAndDigits.2 with
  | none => none
  | some n =>
    let v : Int := if signAndDigits.1 then -(n : Int) else (n : Int)
    if v < -(2 ^ 63) ∨ (2 ^ 63 - 1) < v then none else some v

/-- Key-mapping function held by a generated EnvConfig: the
constructor NewEnvConfigWithMap replaces a nil argument by the
identity function. -/
def newEnvConfigMapKey (mk : Option (String → String)) : String → String :=
  match mk with
  | none => fun k => k
  | some f => f

/-- Body of a generated int-typed EnvConfig method (unifiedTemplate):
for each alias key, the envCheck snippet reads the environment at the
remapped key and, when the value is non-empty and Atoi succeeds,
returns it; the final envReturn snippet does the same for the
canonical key and otherwise returns (defaultValue, false). -/
def envMethodInt (env : String → String) (mapKey : String → String) :
    List String → String → Int → Int × Bool
  | [], canon, d =>
    let value := env (mapKey canon)
    if value ≠ "" then
      match goAtoi value with
      | some n => (n, true)
      | none => (d, false)
    else (d, false)
  | a :: rest, canon, d =>
    let value := env (mapKey a)
    if value ≠ "" then
      match goAtoi value with
      | some n => (n, true)
      | none => envMethodInt env mapKey rest canon d
    else envMethodInt env mapKey rest canon d

/-- Body of a generated string-typed EnvConfig method
(unifiedTemplate): alias keys first via envCheck, canonical key last
via envReturn; a non-empty environment value is returned directly. -/
def envMethodStr (env : String → String) (mapKey : String → String) :
    List String → String → String → String × Bool
  | [], canon, d =>
    let value := env (mapKey canon)
    if value ≠ "" then (value, true) else (d, false)
  | a :: rest, canon, d =>
    let value := env (mapKey a)
    if value ≠ "" then (value, true) else envMethodStr env mapKey rest canon d

/-- Candidate scan written from the specification text: consult the
candidate keys in order, returning the first one whose environment
value is non-empty and parses as a base-10 signed integer; an
unparseable value falls through to the next candidate. -/
def firstEnvInt (env : String → String) (mapKey : String → String) :
    List String → Option Int
  | [] => none
  | k :: rest =>
    let v := env (mapKey k)
    if v ≠ "" then
      match goAtoi v with
      | some n => some n
      | none => firstEnvInt env mapKey rest
    else firstEnvInt env mapKey rest

/-- Candidate scan written from the specification text, string case:
the first candidate with a non-empty environment value wins. -/
def firstEnvStr (env : String → String) (mapKey : String → String) :
    List String → Option String
  | [] => none
  | k :: rest =>
    let v := env (mapKey k)
    if v ≠ "" then some v else firstEnvStr env mapKey rest

/-- Body of a generated AllConfig (composite) method
(unifiedTemplate): iterate the sources, passing defaultValue to each;
the first source reporting ok wins; otherwise (defaultValue, false). -/
def allMethod {α : Type} : List (α → α × Bool) → α → α × Bool
  | [], d => (d, false)
  | s :: rest, d =>
    let r := s d
    if r.2 then (r.1, true) else allMethod rest d

/-- Body of a generated MockConfig method (unifiedTemplate): always
(defaultValue, false). -/
def mockMethod {α : Type} (d : α) : α × Bool := (d, false)

/-- C1: for every method, default value and ordered source list, the
composite adapter returns the value of the first source reporting
exists = true, with exists = true, independently of the sources after
it (they are never consulted); if every source reports false it
returns (defaultValue, false). -/
theorem composite_first_source_wins {α : Type} (d : α) :
    (∀ (pre post : List (α → α × Bool)) (s : α → α × Bool) (v : α),
        (∀ p ∈ pre, (p d).2 = false) → s d = (v, true) →
        allMethod (pre ++ s :: post) d = (v, true))
    ∧ (∀ sources : List (α → α × Bool),
        (∀ p ∈ sources, (p d).2 = false) → allMethod sources d = (d, false)) := by
  constructor
  · intro pre post s v hpre hs
    induction pre with
    | nil =>
      simp [List.nil_append, allMethod, hs]
    | cons p rest ih =>
      have hp : (p d).2 = false := hpre p (List.mem_cons_self p rest)
      simp only [List.cons_append, allMethod, hp, if_false]
      exact ih fun q hq => hpre q (List.mem_cons_of_mem p hq)
  · intro sources hall
    induction sources with
    | nil => rfl
    | cons p rest ih =>
      have hp : (p d).2 = false := hall p (List.mem_cons_self p rest)
      simp only [allMethod, hp, if_false]
      exact ih fun q hq => hall q (List.mem_cons_of_mem p hq)

/-- Witness for composite_first_source_wins at concrete sources over
Int: a non-matching source, then a matching one, then a later source
that is never consulted; and an all-false list. -/
theorem composite_first_source_wins_witness :
    allMethod [fun d => (d, false), fun _ => ((42 : Int), true), fun _ => ((7 : Int), true)] 5
      = (42, true)
    ∧ allMethod [fun d : Int => (d, false)] 5 = (5, false) := by
  constructor
  · exact (composite_first_source_wins (5 : Int)).1
      [fun d => (d, false)] [fun _ => ((7 : Int), true)] (fun _ => ((42 : Int), true)) 42
      (by intro p hp; rw [List.mem_singleton] at hp; subst hp; rfl) rfl
  · exact (composite_first_source_wins (5 : Int)).2 [fun d : Int => (d, false)]
      (by intro p hp; rw [List.mem_singleton] at hp; subst hp; rfl)

/-- C9: the mock adapter is a left identity for the composite: its
lookup always reports (defaultValue, false), so putting it in front of
any source list leaves the composite result unchanged, and the empty
composite returns (defaultValue, false). -/
theorem mock_left_identity {α : Type} :
    (∀ d : α, mockMethod d = (d, false))
    ∧ (∀ (rest : List (α → α × Bool)) (d : α),
        allMethod (mockMethod :: rest) d = allMethod rest d)
    ∧ (∀ d : α, allMethod ([] : List (α → α × Bool)) d = (d, false)) := by
  refine ⟨fun d => rfl, fun rest d => rfl, fun d => rfl⟩

/-- C2: a generated environment method consults the candidate keys in
order (configured aliases first, the canonical derived key last), each
passed through the adapter's key-remapping function (identity when
constructed from nil); the first candidate with a non-empty value
(parsing as a base-10 signed integer for int methods, with unparseable
values falling through to the next candidate) determines the result
with exists = true, and (defaultValue, false) results otherwise. -/
theorem env_candidate_order (env mapKey : String → String)
    (aliases : List String) (canon : String) :
    (∀ d : Int, envMethodInt env mapKey aliases canon d =
        match firstEnvInt env mapKey (aliases ++ [canon]) with
        | some n => (n, true)
        | none => (d, false))
    ∧ (∀ d : String, envMethodStr env mapKey aliases canon d =
        match firstEnvStr env mapKey (aliases ++ [canon]) with
        | some v => (v, true)
        | none => (d, false))
    ∧ (∀ k, newEnvConfigMapKey none k = k) := by
  refine ⟨?_, ?_, fun k => rfl⟩
  · intro d
    induction aliases with
    | nil =>
      simp only [List.nil_append, envMethodInt, firstEnvInt]
      by_cases h : env (mapKey canon) = ""
      · simp [h]
      · simp only [h, ne_eq, not_false_eq_true, if_true]
        cases goAtoi (env (mapKey canon)) <;> simp
    | cons a rest ih =>
      simp only [List.cons_append, envMethodInt, firstEnvInt]
      by_cases h : env (mapKey a) = ""
      · simp [h, ih]
      · simp only [h, ne_eq, not_false_eq_true, if_true]
        cases goAtoi (env (mapKey a)) <;> simp [ih]
  · intro d
    induction aliases with
    | nil =>
      simp only [List.nil_append, envMethodStr, firstEnvStr]
      by_cases h : env (mapKey canon) = "" <;> simp [h]
    | cons a rest ih =>
      simp only [List.cons_append, envMethodStr, firstEnvStr]
      by_cases h : env (mapKey a) = "" <;> simp [h, ih]

/-! YAML runtime (src/runtime/yaml.go).  A parsed document is a Go
map of maps holding dynamically typed values; maps are modelled as
association lists with unique keys and first-match lookup. -/

/-- Model of a finite Go float64 by its exact rational value
num / 2 ^ exp (every finite double has this form). -/
structure GoFloat where
  num : Int
  exp : Nat
deriving DecidableEq

/-- Denominator of the modelled float64. -/
def GoFloat.den (f : GoFloat) : Int := (2 : Int) ^ f.exp

/-- Model of the test math.Trunc t == t: the value is an integer. -/
def GoFloat.isIntegral (f : GoFloat) : Bool := f.num % f.den == 0

/-- Model of the test t > float64(math.MaxInt); on a 64-bit platform
float64(math.MaxInt) rounds to exactly 2 ^ 63. -/
def GoFloat.exceedsMax (f : GoFloat) : Bool := (2 : Int) ^ 63 * f.den < f.num

/-- Model of the test t < float64(math.MinInt) = -(2 ^ 63). -/
def GoFloat.belowMin (f : GoFloat) : Bool := f.num < -((2 : Int) ^ 63) * f.den

/-- Model of the conversion int(t) for an integral in-range value. -/
def GoFloat.toInt (f : GoFloat) : Int := f.num / f.den

/-- Dynamically typed Go value (interface now named any) as it occurs
in parsed YAML: native ints, int64s, float64s, strings, nested maps,
sequences, or anything else. -/
inductive GoVal where
  | vint (n : Int)
  | vint64 (n : Int)
  | vfloat (f : GoFloat)
  | vstr (s : String)
  | vmap (entries : List (String × GoVal))
  | vslice (elems : List GoVal)
  | vother

/-- Go map indexing over the association-list model (map keys are
unique, so first match is the match). -/
def lookupEntry : List (String × GoVal) → String → Option GoVal
  | [], _ => none
  | (k, v) :: rest, key => if k = key then some v else lookupEntry rest key

/-- Parsed YAML document: root is nil (none) for the zero value of
the struct, or a map from section name to value. -/
structure YAML where
  root : Option (List (String × GoVal))

/-- Model of the ensure method: a nil root is replaced by an empty
map before every access. -/
def YAML.ensureRoot : YAML → List (String × GoVal)
  | ⟨none⟩ => []
  | ⟨some m⟩ => m

/-- Root lookup followed by the type assertion to map, shared by
GetString, GetInt and GetSlice. -/
def YAML.sectionMap (y : YAML) (sectionName : String) :
    Option (List (String × GoVal)) :=
  match lookupEntry y.ensureRoot sectionName with
  | some (GoVal.vmap m) => some m
  | _ => none

/-- Key loop of GetString: skip empty keys; a present string value is
returned; a present non-string value or an absent key falls through
to the next key. -/
def getStringKeys (sec : List (String × GoVal)) : List String → String × Bool
  | [] => ("", false)
  | k :: rest =>
    if k = "" then getStringKeys sec rest
    else
      match lookupEntry sec k with
      | some (GoVal.vstr s) => (s, true)
      | _ => getStringKeys sec rest

/-- Model of YAML.GetString. -/
def YAML.getString (y : YAML) (sectionName : String) (keys : List String) :
    String × Bool :=
  match y.sectionMap sectionName with
  | none => ("", false)
  | some sec => getStringKeys sec keys

/-- Key loop of GetInt: skip empty keys; an absent key or a value of
unhandled type falls through to the next key; a native int is
returned; an int64 or float64 is range-checked and a float64 is
additionally required to be integral, with a failed check returning
(0, false) immediately (ending the loop). -/
def getIntKeys (sec : List (String × GoVal)) : List String → Int × Bool
  | [] => (0, false)
  | k :: rest =>
    if k = "" then getIntKeys sec rest
    else
      match lookupEntry sec k with
      | none => getIntKeys sec rest
      | some (GoVal.vint n) => (n, true)
      | some (GoVal.vint64 n) =>
        if (2 : Int) ^ 63 - 1 < n ∨ n < -((2 : Int) ^ 63) then (0, false) else (n, true)
      | some (GoVal.vfloat f) =>
        if f.isIntegral = false then (0, false)
        else if f.exceedsMax ∨ f.belowMin then (0, false)
        else (f.toInt, true)
      | some _ => getIntKeys sec rest

/-- Model of YAML.GetInt. -/
def YAML.getInt (y : YAML) (sectionName : String) (keys : List String) :
    Int × Bool :=
  match y.sectionMap sectionName with
  | none => (0, false)
  | some sec => getIntKeys sec keys

/-- Key loop of GetSlice: skip empty keys; a present sequence value is
returned; anything else falls through ([] models the nil slice). -/
def getSliceKeys (sec : List (String × GoVal)) : List String → List GoVal × Bool
  | [] => ([], false)
  | k :: rest =>
    if k = "" then getSliceKeys sec rest
    else
      match lookupEntry sec k with
      | some (GoVal.vslice l) => (l, true)
      | _ => getSliceKeys sec rest

/-- Model of YAML.GetSlice. -/
def YAML.getSlice (y : YAML) (sectionName : String) (keys : List String) :
    List GoVal × Bool :=
  match y.sectionMap sectionName with
  | none => ([], false)
  | some sec => getSliceKeys sec keys

/-- Model of ParseYAML, taking the outcome of yaml.Unmarshal as input
(error, nil map, or a map): a document that unmarshals to nil becomes
an empty root map; an unmarshal error is wrapped and returned. -/
def parseYAML (unmarshalResult : Except String (Option (List (String × GoVal)))) :
    Except String YAML :=
  match unmarshalResult with
  | Except.error e => Except.error ("yaml unmarshal: " ++ e)
  | Except.ok none => Except.ok ⟨some []⟩
  | Except.ok (some root) => Except.ok ⟨some root⟩

/-- Body of a generated int-typed YAMLConfig method (unifiedTemplate):
try GetInt on each alias section in order with the full candidate key
list (key aliases then the lower-cased method name), then on the
package section; the first ok result wins, otherwise
(defaultValue, false). -/
def yamlMethodInt (y : YAML) :
    List String → String → List String → Int → Int × Bool
  | [], primarySection, keys, d =>
    let r := y.getInt primarySection keys
    if r.2 then (r.1, true) else (d, false)
  | s :: rest, primarySection, keys, d =>
    let r := y.getInt s keys
    if r.2 then (r.1, true) else yamlMethodInt y rest primarySection keys d

/-- Document with one section db holding the float 5.5 under the key
alias and the integer 7 under the key port. -/
def c3Doc : YAML :=
  ⟨some [("db", GoVal.vmap
    [("alias", GoVal.vfloat ⟨11, 1⟩), ("port", GoVal.vint 7)])]⟩

/-- C3 counterexample: in c3Doc the candidate pair (db, port) matches
as integer 7, yet the generated int-typed lookup over the candidate
keys [alias, port] returns (99, false) for default 99 — the
fractional float 5.5 at the key alias ends the key search instead of
continuing to the next candidate key, refuting the claim that the
default is returned only when no candidate section/key pair matches. -/
theorem getInt_float_aborts_counterexample :
    yamlMethodInt c3Doc [] ("db") ["alias", "port"] 99 = (99, false)
    ∧ YAML.getInt c3Doc ("db") ["port"] = (7, true) := by
  constructor <;> rfl

/-- C3 amended: a floating-point value with a fractional part or
outside the signed-integer range found at a candidate key ends the
key search within the current section with no match for that whole
section (later keys of that section are not consulted); the search
then continues with the next candidate section, and the lookup
returns (defaultValue, false) when every candidate section yields no
match. -/
theorem getInt_float_aborts_section :
    (∀ (sec : List (String × GoVal)) (k : String) (rest : List String) (f : GoFloat),
        k ≠ "" → lookupEntry sec k = some (GoVal.vfloat f) →
        (f.isIntegral = false ∨ f.exceedsMax = true ∨ f.belowMin = true) →
        getIntKeys sec (k :: rest) = (0, false))
    ∧ (∀ (y : YAML) (s : String) (rest : List String) (primarySection : String)
          (keys : List String) (d : Int),
        (y.getInt s keys).2 = false →
        yamlMethodInt y (s :: rest) primarySection keys d =
          yamlMethodInt y rest primarySection keys d)
    ∧ (∀ (y : YAML) (primarySection : String) (keys : List String) (d : Int),
        (y.getInt primarySection keys).2 = false →
        yamlMethodInt y [] primarySection keys d = (d, false)) := by
  refine ⟨?_, ?_, ?_⟩
  · intro sec k rest f hk hlook hbad
    simp only [getIntKeys, hk, if_false, hlook]
    rcases hbad with h | h | h
    · simp [h]
    · rcases hf : f.isIntegral with _ | _ <;> simp [h, hf]
    · rcases hf : f.isIntegral with _ | _ <;> simp [h, hf]
  · intro y s rest primarySection keys d h
    simp [yamlMethodInt, h]
  · intro y primarySection keys d h
    simp [yamlMethodInt, h]

/-- Witness for getInt_float_aborts_section at c3Doc: the fractional
float at the key alias makes the whole db section report no match,
and the method then falls through to the default. -/
theorem getInt_float_aborts_section_witness :
    getIntKeys [("alias", GoVal.vfloat ⟨11, 1⟩), ("port", GoVal.vint 7)]
      ["alias", "port"] = (0, false)
    ∧ yamlMethodInt c3Doc [] ("db") ["alias", "port"] 99 = (99, false) := by
  constructor
  · exact getInt_float_aborts_section.1
      [("alias", GoVal.vfloat ⟨11, 1⟩), ("port", GoVal.vint 7)]
      ("alias") ["port"] ⟨11, 1⟩ (by decide) rfl (Or.inl rfl)
  · exact getInt_float_aborts_section.2.2 c3Doc ("db") ["alias", "port"] 99 rfl

/-- C10: document lookups are total on empty and zero-valued
documents: the zero-valued YAML struct (nil root) is treated as an
empty map by every accessor, ParseYAML turns a document unmarshalling
to nil into an empty root map, and a missing (or non-map) section or
entirely missing keys always yield the result type's zero value with
false. -/
theorem yaml_lookup_total_on_empty :
    (∀ sectionName keys, YAML.getString ⟨none⟩ sectionName keys = ("", false))
    ∧ (∀ sectionName keys, YAML.getInt ⟨none⟩ sectionName keys = (0, false))
    ∧ (∀ sectionName keys, YAML.getSlice ⟨none⟩ sectionName keys = ([], false))
    ∧ parseYAML (Except.ok none) = Except.ok ⟨some []⟩
    ∧ (∀ (y : YAML) sectionName keys, y.sectionMap sectionName = none →
        y.getString sectionName keys = ("", false)
        ∧ y.getInt sectionName keys = (0, false)
        ∧ y.getSlice sectionName keys = ([], false))
    ∧ (∀ (sec : List (String × GoVal)) (keys : List String),
        (∀ k ∈ keys, lookupEntry sec k = none) →
        getStringKeys sec keys = ("", false)
        ∧ getIntKeys sec keys = (0, false)
        ∧ getSliceKeys sec keys = ([], false)) := by
  refine ⟨fun s k => rfl, fun s k => rfl, fun s k => rfl, rfl, ?_, ?_⟩
  · intro y sectionName keys h
    refine ⟨?_, ?_, ?_⟩ <;> simp only [YAML.getString, YAML.getInt, YAML.getSlice, h]
  · intro sec keys h
    induction keys with
    | nil => exact ⟨rfl, rfl, rfl⟩
    | cons k rest ih =>
      have hk : lookupEntry sec k = none := h k (List.mem_cons_self k rest)
      have hrest := ih fun q hq => h q (List.mem_cons_of_mem k hq)
      by_cases hke : k = ""
      · simpa [getStringKeys, getIntKeys, getSliceKeys, hke] using hrest
      · simp only [getStringKeys, getIntKeys, getSliceKeys, hke, if_false, hk]
        exact hrest

/-- Witness for yaml_lookup_total_on_empty: a document whose root
lacks the requested section, and a section lacking the requested
keys. -/
theorem yaml_lookup_total_on_empty_witness :
    YAML.getInt ⟨some [("db", GoVal.vmap [])]⟩ ("server") ["port"] = (0, false)
    ∧ getStringKeys [("port", GoVal.vint 7)] ["host"] = ("", false) := by
  constructor
  · exact ((yaml_lookup_total_on_empty.2.2.2.2.1 ⟨some [("db", GoVal.vmap [])]⟩
      ("server") ["port"]) rfl).2.1
  · exact (yaml_lookup_total_on_empty.2.2.2.2.2 [("port", GoVal.vint 7)] ["host"]
      (by intro k hk; rw [List.mem_singleton] at hk; subst hk; rfl)).1

/-! Global facade (registry template emitted by ensureRegistryFile):
NewGlobalConfig scans its sources for an env key mapper and a
document path, then reads and parses the document at most once. -/

/-- A source accepted by NewGlobalConfig: an EnvConfig carrying a key
mapper (none models a nil pointer or nil function field, both
skipped), a GlobalYamlConfig carrying a path (none models a nil
pointer), or a value of any other type (ignored). -/
inductive GSource where
  | envCfg (mapKey : Option (String → String))
  | yamlCfg (path : Option String)
  | otherSrc

/-- Facade state: one parsed document and one env key mapper. -/
structure GlobalConfig where
  y : YAML
  mapKey : String → String

/-- One step of the source scan in NewGlobalConfig: an EnvConfig with
a non-nil mapper replaces the mapper, a GlobalYamlConfig with a
non-empty path replaces the pending document path, anything else is
ignored. -/
def applySource (acc : (String → String) × String) (s : GSource) :
    (String → String) × String :=
  match s with
  | GSource.envCfg (some f) => (f, acc.2)
  | GSource.envCfg none => acc
  | GSource.yamlCfg (some p) => if p ≠ "" then (acc.1, p) else acc
  | GSource.yamlCfg none => acc
  | GSource.otherSrc => acc

/-- The full source scan, starting from the identity mapper and no
document path. -/
def scanSources (sources : List GSource) : (String → String) × String :=
  sources.foldl applySource (fun k => k, "")

/-- Model of NewGlobalConfig.  File reading and yaml.Unmarshal are
external collaborators, passed in as functions; the second component
of the result records the paths actually read, in order, so that
"read exactly once" is observable. -/
def newGlobalConfig (readFile : String → Except String String)
    (unmarshal : String → Except String (Option (List (String × GoVal))))
    (sources : List GSource) : Except String GlobalConfig × List String :=
  let acc := scanSources sources
  if acc.2 = "" then (Except.ok ⟨⟨none⟩, acc.1⟩, [])
  else
    match readFile acc.2 with
    | Except.error e => (Except.error e, [acc.2])
    | Except.ok b =>
      match parseYAML (unmarshal b) with
      | Except.error e => (Except.error e, [acc.2])
      | Except.ok y => (Except.ok ⟨y, acc.1⟩, [acc.2])

/-- C8: when a document-path source is supplied (the scanned path is
non-empty) the file is read exactly once during construction, a read
or parse failure makes the whole construction fail with that error
(no facade, no fallback), and a successful parse yields a facade
holding the parsed document; when no document-path source is supplied
construction succeeds with the empty (zero-valued) document and no
read at all. -/
theorem facade_parses_once (readFile : String → Except String String)
    (unmarshal : String → Except String (Option (List (String × GoVal))))
    (sources : List GSource) :
    ((scanSources sources).2 = "" →
      newGlobalConfig readFile unmarshal sources =
        (Except.ok ⟨⟨none⟩, (scanSources sources).1⟩, []))
    ∧ ((scanSources sources).2 ≠ "" →
      (newGlobalConfig readFile unmarshal sources).2 = [(scanSources sources).2])
    ∧ (∀ e, (scanSources sources).2 ≠ "" →
      readFile (scanSources sources).2 = Except.error e →
      (newGlobalConfig readFile unmarshal sources).1 = Except.error e)
    ∧ (∀ b e, (scanSources sources).2 ≠ "" →
      readFile (scanSources sources).2 = Except.ok b →
      parseYAML (unmarshal b) = Except.error e →
      (newGlobalConfig readFile unmarshal sources).1 = Except.error e)
    ∧ (∀ b y, (scanSources sources).2 ≠ "" →
      readFile (scanSources sources).2 = Except.ok b →
      parseYAML (unmarshal b) = Except.ok y →
      (newGlobalConfig readFile unmarshal sources).1 =
        Except.ok ⟨y, (scanSources sources).1⟩) := by
  refine ⟨?_, ?_, ?_, ?_, ?_⟩
  · intro h
    simp only [newGlobalConfig, h, if_true]
  · intro h
    simp only [newGlobalConfig, h, if_false]
    cases hr : readFile (scanSources sources).2 with
    | error e => simp [hr]
    | ok b => cases hp : parseYAML (unmarshal b) <;> simp [hr, hp]
  · intro e h hr
    simp [newGlobalConfig, h, hr]
  · intro b e h hr hp
    simp [newGlobalConfig, h, hr, hp]
  · intro b y h hr hp
    simp [newGlobalConfig, h, hr, hp]

/-- Witness for facade_parses_once at concrete collaborators: a
successful construction reads config.yaml once and holds the parsed
document; a failing parse propagates the error; an empty source list
builds the empty facade without reading. -/
theorem facade_parses_once_witness :
    newGlobalConfig (fun _ => Except.ok ("doc"))
      (fun _ => Except.ok (some [("db", GoVal.vmap [])]))
      [GSource.yamlCfg (some ("config.yaml"))] =
        (Except.ok ⟨⟨some [("db", GoVal.vmap [])]⟩, fun k => k⟩, [("config.yaml")])
    ∧ (newGlobalConfig (fun _ => Except.ok ("doc"))
        (fun _ => Except.error ("bad"))
        [GSource.yamlCfg (some ("config.yaml"))]).1 =
          Except.error ("yaml unmarshal: bad")
    ∧ newGlobalConfig (fun _ => Except.ok ("doc"))
        (fun _ => Except.ok (some [])) [] =
          (Except.ok ⟨⟨none⟩, fun k => k⟩, []) := by
  refine ⟨?_, ?_, ?_⟩
  · have h1 := (facade_parses_once (fun _ => Except.ok ("doc"))
      (fun _ => Except.ok (some [("db", GoVal.vmap [])]))
      [GSource.yamlCfg (some ("config.yaml"))]).2.1 (by decide)
    have h2 := (facade_parses_once (fun _ => Except.ok ("doc"))
      (fun _ => Except.ok (some [("db", GoVal.vmap [])]))
      [GSource.yamlCfg (some ("config.yaml"))]).2.2.2.2 ("doc")
      ⟨some [("db", GoVal.vmap [])]⟩ (by decide) rfl rfl
    exact Prod.ext h2 h1
  · exact (facade_parses_once (fun _ => Except.ok ("doc"))
      (fun _ => Except.error ("bad"))
      [GSource.yamlCfg (some ("config.yaml"))]).2.2.2.1 ("doc")
      ("yaml unmarshal: bad") (by decide) rfl rfl
  · exact (facade_parses_once (fun _ => Except.ok ("doc"))
      (fun _ => Except.ok (some [])) []).1 rfl

/-! Signature extraction (getMethodSignature / getReturnTypes). -/

/-- A Go type expression as inspected by the extractor: a plain
identifier (ast.Ident) with its name, or any other expression shape
(slice, pointer, qualified name, ...), for which the type assertion
to *ast.Ident fails. -/
inductive GoTypeExpr where
  | ident (name : String)
  | otherType

/-- The parameter and result type expressions of a method
(ast.FuncType with its Params and Results field lists). -/
structure GoFuncType where
  params : List GoTypeExpr
  results : List GoTypeExpr

/-- Model of getReturnTypes: one name per declared result, with the
empty string standing in for any non-identifier type expression (the
source appends an empty name when the assertion to *ast.Ident
fails); an absent or empty result list gives the empty list. -/
def getReturnTypes (ft : GoFuncType) : List String :=
  ft.results.map fun r =>
    match r with
    | GoTypeExpr.ident n => n
    | GoTypeExpr.otherType => ""

/-- First parameter's type name when it is an identifier, otherwise
the empty string, as in the head of getMethodSignature. -/
def paramTypeOf (ft : GoFuncType) : String :=
  match ft.params with
  | GoTypeExpr.ident n :: _ => n
  | _ => ""

/-- Model of getMethodSignature: exactly two results are required,
the second must be bool and the first must be string or int; on
success the (unvalidated) parameter type and the first result type
are returned, and any violation is an error (the caller aborts
generation with log.Fatalf naming the interface and method). -/
def getMethodSignature (ft : GoFuncType) : Except String (String × String) :=
  match getReturnTypes ft with
  | [r0, r1] =>
    if r1 ≠ "bool" then
      Except.error ("second return value must be bool, got " ++ r1)
    else if r0 ≠ "string" ∧ r0 ≠ "int" then
      Except.error ("unsupported value return type " ++ r0 ++ " (supported: string, int)")
    else Except.ok (paramTypeOf ft, r0)
  | rets =>
    Except.error ("expected 2 return values (T, bool), got " ++ toString rets.length)

/-- C4 counterexample: a method with parameter type int but results
(string, bool) is accepted by getMethodSignature with no error even
though the parameter type differs from the first result type, and a
method whose first result is a non-identifier type expression (such
as a slice of a named structure type) is rejected — both contradict
the claim. -/
theorem signature_extraction_counterexample :
    getMethodSignature
      ⟨[GoTypeExpr.ident ("int")], [GoTypeExpr.ident ("string"), GoTypeExpr.ident ("bool")]⟩
      = Except.ok ("int", "string")
    ∧ ("int" : String) ≠ ("string")
    ∧ getMethodSignature
        ⟨[GoTypeExpr.otherType], [GoTypeExpr.otherType, GoTypeExpr.ident ("bool")]⟩
        = Except.error ("unsupported value return type  (supported: string, int)") := by
  refine ⟨rfl, by decide, rfl⟩

/-- C4 amended: signature extraction accepts a method exactly when it
declares exactly two result types with the second the identifier bool
and the first the identifier string or int (so a slice of a named
structure type is rejected); the parameter type is extracted but not
validated against the first result type; any deviation is an error on
which generation does not proceed. -/
theorem signature_extraction_accepts_iff (ft : GoFuncType) :
    ((∃ pr, getMethodSignature ft = Except.ok pr) ↔
      ((getReturnTypes ft).length = 2
        ∧ (getReturnTypes ft).getD 1 "" = "bool"
        ∧ ((getReturnTypes ft).getD 0 "" = "string"
            ∨ (getReturnTypes ft).getD 0 "" = "int")))
    ∧ (∀ p r, getMethodSignature ft = Except.ok (p, r) →
        p = paramTypeOf ft ∧ r = (getReturnTypes ft).getD 0 "") := by
  rcases hr : getReturnTypes ft with _ | ⟨r0, _ | ⟨r1, _ | ⟨r2, rest⟩⟩⟩
  · constructor
    · simp [getMethodSignature, hr]
    · intro p r hpr
      simp [getMethodSignature, hr] at hpr
  · constructor
    · simp [getMethodSignature, hr]
    · intro p r hpr
      simp [getMethodSignature, hr] at hpr
  · constructor
    · by_cases h1 : r1 = "bool" <;> by_cases hs : r0 = "string" <;>
        by_cases hi : r0 = "int" <;>
        simp [getMethodSignature, hr, h1, hs, hi, List.getD]
    · intro p r hpr
      by_cases h1 : r1 = "bool" <;> by_cases hs : r0 = "string" <;>
        by_cases hi : r0 = "int" <;>
        simp [getMethodSignature, hr, h1, hs, hi, List.getD] at hpr ⊢ <;>
        exact ⟨hpr.1.symm, hpr.2.symm⟩
  · constructor
    · constructor
      · intro hpr
        exfalso
        rcases hpr with ⟨pr, hpr⟩
        simp [getMethodSignature, hr] at hpr
      · intro hlen
        exfalso
        have := hlen.1
        simp at this
    · intro p r hpr
      simp [getMethodSignature, hr] at hpr

/-! Alias directive parsing (parseAliasSettings).  Go string
primitives are modelled on character lists; all separators used by
the source (equals sign, dot, comma) are single characters, so
single-character splitters are exact. -/

/-- ASCII whitespace trimmed by strings.TrimSpace on the data handled
here. -/
def isSpaceChar (c : Char) : Bool := c == ' ' || c == '\t' || c == '\n' || c == '\r'

/-- Model of strings.TrimSpace. -/
def goTrimSpace (s : String) : String :=
  String.mk (((s.toList.dropWhile isSpaceChar).reverse.dropWhile isSpaceChar).reverse)

/-- Split worker: accumulates the current field (reversed) and starts
a new field at each separator. -/
def splitCharAux (sep : Char) : List Char → List Char → List String
  | [], acc => [String.mk acc.reverse]
  | c :: rest, acc =>
    if c == sep then String.mk acc.reverse :: splitCharAux sep rest []
    else splitCharAux sep rest (c :: acc)

/-- Model of strings.Split with a single-character separator (as used
for dots and commas); the empty string yields one empty field. -/
def goSplitChar (s : String) (sep : Char) : List String := splitCharAux sep s.toList []

/-- Worker for SplitN with limit 2: stop at the first equals sign. -/
def splitEq2Aux : List Char → List Char → List String
  | [], acc => [String.mk acc.reverse]
  | c :: rest, acc =>
    if c == '=' then [String.mk acc.reverse, String.mk rest]
    else splitEq2Aux rest (c :: acc)

/-- Model of strings.SplitN(item, equals sign, 2): one field when the
separator is absent, otherwise the part before the first equals sign
and everything after it. -/
def goSplitEq2 (s : String) : List String := splitEq2Aux s.toList []

/-- The three alias tables; the two per-method maps are association
lists observed through tblGet. -/
structure AliasSettings where
  env : List (String × List String)
  yamlSection : List String
  yamlKey : List (String × List String)

/-- Go map read with the zero value (empty list) for a missing key. -/
def tblGet (t : List (String × List String)) (k : String) : List String :=
  match t with
  | [] => []
  | (k', v) :: rest => if k' = k then v else tblGet rest k

/-- Go map write: replace the entry for the key or add one. -/
def tblPut : List (String × List String) → String → List String → List (String × List String)
  | [], k, v => [(k, v)]
  | (k', v') :: rest, k, v =>
    if k' = k then (k, v) :: rest else (k', v') :: tblPut rest k v

/-- Model of the append-into-map idiom m[k] = append(m[k], vs...). -/
def tblApp (t : List (String × List String)) (k : String) (vs : List String) :
    List (String × List String) :=
  tblPut t k (tblGet t k ++ vs)

/-- Values of one directive: the right-hand side (already trimmed) is
split on commas, each piece trimmed, empty pieces dropped, order
kept. -/
def parseAliasValues (right : String) : List String :=
  if right = "" then []
  else ((goSplitChar right ',').map goTrimSpace).filter (fun v => v != "")

/-- Dispatch of one directive after the equals-sign split and
trimming: the left side is split on dots; env.{Method} with exactly
two segments and nonempty values appends to that method's env alias
list; yaml.section appends to the section alias list whenever the
second segment is section; yaml.key.{Method} with exactly three
segments and nonempty values appends to that method's key alias list;
everything else leaves the settings unchanged. -/
def applyAliasDirective (s : AliasSettings) (left right : String) : AliasSettings :=
  let values := parseAliasValues right
  let segs := goSplitChar left '.'
  match segs with
  | [] => s
  | seg0 :: _ =>
    if seg0 = "env" then
      match segs with
      | [_, m] => if values ≠ [] then { s with env := tblApp s.env m values } else s
      | _ => s
    else if seg0 = "yaml" then
      match segs with
      | _ :: seg1 :: _ =>
        if seg1 = "section" then { s with yamlSection := s.yamlSection ++ values }
        else if seg1 = "key" then
          match segs with
          | [_, _, m] =>
            if values ≠ [] then { s with yamlKey := tblApp s.yamlKey m values } else s
          | _ => s
        else s
      | _ => s
    else s

/-- One loop iteration of parseAliasSettings: items without an equals
sign are skipped; otherwise both sides are trimmed and dispatched. -/
def parseAliasItem (s : AliasSettings) (item : String) : AliasSettings :=
  match goSplitEq2 item with
  | [l, r] => applyAliasDirective s (goTrimSpace l) (goTrimSpace r)
  | _ => s

/-- Model of parseAliasSettings: fold all --alias flags over the
empty tables. -/
def parseAliasSettings (flags : List String) : AliasSettings :=
  flags.foldl parseAliasItem ⟨[], [], []⟩

theorem tblGet_tblApp_self (t : List (String × List String)) (k : String)
    (vs : List String) : tblGet (tblApp t k vs) k = tblGet t k ++ vs := by
  unfold tblApp
  generalize tblGet t k ++ vs = w
  induction t with
  | nil => simp [tblPut, tblGet]
  | cons e rest ih =>
    obtain ⟨k', v'⟩ := e
    by_cases h : k' = k <;> simp [tblPut, tblGet, h, ih]

theorem tblGet_tblApp_other (t : List (String × List String)) (k m : String)
    (vs : List String) (hne : m ≠ k) : tblGet (tblApp t k vs) m = tblGet t m := by
  have hkm : ¬ (k = m) := fun e => hne e.symm
  unfold tblApp
  generalize tblGet t k ++ vs = w
  induction t with
  | nil =>
    simp only [tblPut, tblGet]
    rw [if_neg hkm]
  | cons e rest ih =>
    obtain ⟨k', v'⟩ := e
    by_cases h : k' = k
    · have hk'm : ¬ (k' = m) := h ▸ hkm
      simp only [tblPut, if_pos h, tblGet, if_neg hkm, if_neg hk'm]
    · by_cases h2 : k' = m
      · simp only [tblPut, if_neg h, tblGet, if_pos h2]
      · simp only [tblPut, if_neg h, tblGet, if_neg h2, ih]

/-- C7 counterexample: the directive yaml.section.x=a has three
segments, which matches no grammar form (yaml.section takes two
segments, yaml.key.{Method} requires key as second segment), yet
parsing appends a to the section-alias table instead of leaving all
tables unchanged. -/
theorem alias_extra_segment_counterexample :
    (goSplitChar ("yaml.section.x") '.').length = 3
    ∧ (parseAliasSettings [("yaml.section.x=a")]).yamlSection = ["a"]
    ∧ (parseAliasSettings []).yamlSection = [] := by
  refine ⟨rfl, rfl, rfl⟩

/-- C7 amended: parsing leaves all three alias tables unchanged by a
directive with no equals sign, an unknown first segment, an env form
whose segment count is not two, a yaml form whose second segment is
neither section nor key, a yaml.key form whose segment count is not
three, or an env or yaml.key form with no remaining values; a
directive whose first two segments are yaml.section appends its
values to the section-alias table even when extra segments follow;
for well-formed directives the comma-separated values are trimmed of
surrounding whitespace, empty values are dropped, and the rest are
appended to the matching table in the given order. -/
theorem alias_parsing_effects :
    (∀ (s : AliasSettings) (item l : String),
        goSplitEq2 item = [l] → parseAliasItem s item = s)
    ∧ (∀ (s : AliasSettings) (l r seg0 : String) (rest : List String),
        goSplitChar l '.' = seg0 :: rest → seg0 ≠ "env" → seg0 ≠ "yaml" →
        applyAliasDirective s l r = s)
    ∧ (∀ (s : AliasSettings) (l r : String),
        goSplitChar l '.' = ["env"] → applyAliasDirective s l r = s)
    ∧ (∀ (s : AliasSettings) (l r a b : String) (rest : List String),
        goSplitChar l '.' = "env" :: a :: b :: rest → applyAliasDirective s l r = s)
    ∧ (∀ (s : AliasSettings) (l r m : String),
        goSplitChar l '.' = ["env", m] →
        tblGet (applyAliasDirective s l r).env m = tblGet s.env m ++ parseAliasValues r
        ∧ (∀ m', m' ≠ m → tblGet (applyAliasDirective s l r).env m' = tblGet s.env m')
        ∧ (applyAliasDirective s l r).yamlSection = s.yamlSection
        ∧ (applyAliasDirective s l r).yamlKey = s.yamlKey)
    ∧ (∀ (s : AliasSettings) (l r : String) (rest : List String),
        goSplitChar l '.' = "yaml" :: "section" :: rest →
        (applyAliasDirective s l r).yamlSection = s.yamlSection ++ parseAliasValues r
        ∧ (applyAliasDirective s l r).env = s.env
        ∧ (applyAliasDirective s l r).yamlKey = s.yamlKey)
    ∧ (∀ (s : AliasSettings) (l r seg1 : String) (rest : List String),
        goSplitChar l '.' = "yaml" :: seg1 :: rest → seg1 ≠ "section" → seg1 ≠ "key" →
        applyAliasDirective s l r = s)
    ∧ (∀ (s : AliasSettings) (l r : String),
        goSplitChar l '.' = ["yaml"] → applyAliasDirective s l r = s)
    ∧ (∀ (s : AliasSettings) (l r : String),
        goSplitChar l '.' = ["yaml", "key"] → applyAliasDirective s l r = s)
    ∧ (∀ (s : AliasSettings) (l r a b : String) (rest : List String),
        goSplitChar l '.' = "yaml" :: "key" :: a :: b :: rest →
        applyAliasDirective s l r = s)
    ∧ (∀ (s : AliasSettings) (l r m : String),
        goSplitChar l '.' = ["yaml", "key", m] →
        tblGet (applyAliasDirective s l r).yamlKey m
          = tblGet s.yamlKey m ++ parseAliasValues r
        ∧ (∀ m', m' ≠ m →
            tblGet (applyAliasDirective s l r).yamlKey m' = tblGet s.yamlKey m')
        ∧ (applyAliasDirective s l r).env = s.env
        ∧ (applyAliasDirective s l r).yamlSection = s.yamlSection)
    ∧ (∀ r : String, ("" : String) ∉ parseAliasValues r) := by
  refine ⟨?_, ?_, ?_, ?_, ?_, ?_, ?_, ?_, ?_, ?_, ?_, ?_⟩
  · intro s item l h
    simp [parseAliasItem, h]
  · intro s l r seg0 rest h h1 h2
    simp [applyAliasDirective, h, h1, h2]
  · intro s l r h
    simp [applyAliasDirective, h]
  · intro s l r a b rest h
    simp [applyAliasDirective, h]
  · intro s l r m h
    by_cases hv : parseAliasValues r = []
    · simp [applyAliasDirective, h, hv]
    · refine ⟨?_, ?_, ?_, ?_⟩ <;>
        simp [applyAliasDirective, h, hv, tblGet_tblApp_self]
      intro m' hm'
      exact tblGet_tblApp_other s.env m m' (parseAliasValues r) hm'
  · intro s l r rest h
    simp [applyAliasDirective, h]
  · intro s l r seg1 rest h h1 h2
    simp [applyAliasDirective, h, h1, h2]
  · intro s l r h
    simp [applyAliasDirective, h]
  · intro s l r h
    simp [applyAliasDirective, h]
  · intro s l r a b rest h
    simp [applyAliasDirective, h]
  · intro s l r m h
    by_cases hv : parseAliasValues r = []
    · simp [applyAliasDirective, h, hv]
    · refine ⟨?_, ?_, ?_, ?_⟩ <;>
        simp [applyAliasDirective, h, hv, tblGet_tblApp_self]
      intro m' hm'
      exact tblGet_tblApp_other s.yamlKey m m' (parseAliasValues r) hm'
  · intro r
    unfold parseAliasValues
    by_cases hr : r = ""
    · simp [hr]
    · simp only [hr, if_false]
      intro hmem
      have := List.of_mem_filter hmem
      simp at this

/-- Witness for alias_parsing_effects at concrete directives: an env
alias directive appends its trimmed nonempty values for its method, a
directive without an equals sign is ignored, and a yaml form with an
unknown second segment is ignored. -/
theorem alias_parsing_effects_witness :
    tblGet (applyAliasDirective ⟨[], [], []⟩ ("env.Host") ("A , ,B")).env ("Host")
      = ["A", "B"]
    ∧ parseAliasItem ⟨[], [], []⟩ ("no-equals-here") = ⟨[], [], []⟩
    ∧ applyAliasDirective ⟨[], [], []⟩ ("yaml.bogus") ("v") = ⟨[], [], []⟩ := by
  refine ⟨?_, ?_, ?_⟩
  · have h := (alias_parsing_effects.2.2.2.2.1 ⟨[], [], []⟩ ("env.Host") ("A , ,B")
      ("Host") (by decide)).1
    rw [h]
    rfl
  · exact alias_parsing_effects.1 ⟨[], [], []⟩ ("no-equals-here") ("no-equals-here")
      (by decide)
  · exact alias_parsing_effects.2.2.2.2.2.2.1 ⟨[], [], []⟩ ("yaml.bogus") ("v")
      ("bogus") [] (by decide) (by decide) (by decide)

/-! Unique package identifier derivation (pathToUniqueName). -/

/-- Test for a pair of adjacent underscores, the condition of the
collapsing loop strings.Contains(path, two underscores). -/
def hasDU : List Char → Bool
  | a :: b :: rest => if a = '_' ∧ b = '_' then true else hasDU (b :: rest)
  | _ => false

/-- One ReplaceAll pass replacing each non-overlapping, leftmost pair
of underscores by a single underscore. -/
def collapseOnce : List Char → List Char
  | [] => []
  | [c] => [c]
  | a :: b :: rest =>
    if a = '_' ∧ b = '_' then '_' :: collapseOnce rest
    else a :: collapseOnce (b :: rest)

/-- The collapsing while loop, fuelled: each iteration strictly
shortens the list, so fuel equal to the initial length is enough (the
theorem hasDU_collapseIter below proves no adjacent underscores
survive). -/
def collapseIter : Nat → List Char → List Char
  | 0, l => l
  | n + 1, l => if hasDU l then collapseIter n (collapseOnce l) else l

/-- Model of strings.HasPrefix on character lists. -/
def startsWithChars : List Char → List Char → Bool
  | _, [] => true
  | [], _ :: _ => false
  | c :: cs, p :: ps => c == p && startsWithChars cs ps

/-- Model of strings.TrimPrefix on character lists. -/
def trimLeadChars (s pre : List Char) : List Char :=
  if startsWithChars s pre then s.drop pre.length else s

/-- Model of strings.Trim(path, underscore cutset): drop leading and
trailing underscores. -/
def trimUnders (l : List Char) : List Char :=
  ((l.dropWhile (fun c => c == '_')).reverse.dropWhile (fun c => c == '_')).reverse

/-- Model of pathToUniqueName: strip a leading ./ or ., replace path
separators by underscores (on the target platform filepath.Separator
is the slash, so both ReplaceAll calls replace the same character),
collapse runs of underscores while any pair remains, trim leading and
trailing underscores, and fall back to the sentinel root when the
result is empty. -/
def pathToUniqueName (path : String) : String :=
  let p1 := trimLeadChars path.toList ['.', '/']
  let p2 := trimLeadChars p1 ['.']
  let p3 := p2.map fun c => if c == '/' then '_' else c
  let p4 := collapseIter p3.length p3
  let p5 := trimUnders p4
  if p5.isEmpty then ("root") else String.mk p5

theorem collapseOnce_length_le (l : List Char) :
    (collapseOnce l).length ≤ l.length := by
  induction l using collapseOnce.induct with
  | case1 => simp [collapseOnce]
  | case2 c => simp [collapseOnce]
  | case3 a b rest h ih =>
    simp only [collapseOnce, if_pos h, List.length_cons]
    omega
  | case4 a b rest h ih =>
    simp only [collapseOnce, if_neg h, List.length_cons]
    simp only [List.length_cons] at ih
    omega

theorem collapseOnce_length_lt (l : List Char) (h : hasDU l = true) :
    (collapseOnce l).length < l.length := by
  induction l using collapseOnce.induct with
  | case1 => simp [hasDU] at h
  | case2 c => simp [hasDU] at h
  | case3 a b rest hab ih =>
    have := collapseOnce_length_le rest
    simp only [collapseOnce, if_pos hab, List.length_cons]
    omega
  | case4 a b rest hab ih =>
    have htail : hasDU (b :: rest) = true := by
      simpa [hasDU, if_neg hab] using h
    have := ih htail
    simp only [collapseOnce, if_neg hab, List.length_cons] at *
    omega

theorem hasDU_collapseIter (n : Nat) (l : List Char) (h : l.length ≤ n) :
    hasDU (collapseIter n l) = false := by
  induction n generalizing l with
  | zero =>
    have : l = [] := List.length_eq_zero.mp (Nat.le_zero.mp h)
    subst this
    rfl
  | succ n ih =>
    rcases hd : hasDU l with _ | _
    · simp [collapseIter, hd]
    · have hlt := collapseOnce_length_lt l hd
      simp only [collapseIter, hd, if_pos]
      exact ih _ (by omega)

theorem hasDU_cons (c : Char) (rest : List Char) (h : hasDU (c :: rest) = false) :
    hasDU rest = false := by
  match rest with
  | [] => rfl
  | b :: t =>
    by_cases hcb : c = '_' ∧ b = '_'
    · simp [hasDU, if_pos hcb] at h
    · simpa [hasDU, if_neg hcb] using h

theorem hasDU_append_left (x y : List Char) (h : hasDU (x ++ y) = false) :
    hasDU y = false := by
  induction x with
  | nil => exact h
  | cons c x' ih => exact ih (hasDU_cons c (x' ++ y) h)

theorem hasDU_append_right (x y : List Char) (h : hasDU (x ++ y) = false) :
    hasDU x = false := by
  induction x with
  | nil => rfl
  | cons c x' ih =>
    match x', h, ih with
    | [], _, _ => rfl
    | b :: t, h, ih =>
      by_cases hcb : c = '_' ∧ b = '_'
      · simp [hasDU, if_pos hcb] at h
      · have ht : hasDU ((b :: t) ++ y) = false := by
          simpa [hasDU, if_neg hcb] using h
        have := ih ht
        simpa [hasDU, if_neg hcb] using this

theorem dropWhile_decomp (u : Char → Bool) (l : List Char) :
    ∃ t, l = t ++ l.dropWhile u := by
  induction l with
  | nil => exact ⟨[], rfl⟩
  | cons c rest ih =>
    rcases hc : u c with _ | _
    · exact ⟨[], by simp [List.dropWhile, hc]⟩
    · obtain ⟨t, ht⟩ := ih
      exact ⟨c :: t, by simpa [List.dropWhile, hc] using ht⟩

theorem dropWhile_head_not (u : Char → Bool) (l : List Char) (c : Char)
    (h : (l.dropWhile u).head? = some c) : u c = false := by
  induction l with
  | nil => simp at h
  | cons a rest ih =>
    rcases ha : u a with _ | _
    · simp [List.dropWhile, ha] at h
      exact h ▸ ha
    · exact ih (by simpa [List.dropWhile, ha] using h)

theorem mem_collapseOnce (l : List Char) (c : Char) (h : c ∈ collapseOnce l) :
    c ∈ l := by
  induction l using collapseOnce.induct with
  | case1 => simp [collapseOnce] at h
  | case2 a => simpa [collapseOnce] using h
  | case3 a b rest hab ih =>
    simp only [collapseOnce, if_pos hab, List.mem_cons] at h
    rcases h with h | h
    · simp [hab.1 ▸ h]
    · simp [List.mem_cons, ih h]
  | case4 a b rest hab ih =>
    simp only [collapseOnce, if_neg hab, List.mem_cons] at h
    rcases h with h | h
    · simp [h]
    · have := ih h
      simpa [List.mem_cons] using Or.inr (List.mem_cons.mp this)

theorem mem_collapseIter (n : Nat) (l : List Char) (c : Char)
    (h : c ∈ collapseIter n l) : c ∈ l := by
  induction n generalizing l with
  | zero => exact h
  | succ n ih =>
    by_cases hd : hasDU l = true
    · simp only [collapseIter, hd, if_pos] at h
      exact mem_collapseOnce l c (ih _ h)
    · simpa [collapseIter, hd] using h

theorem mem_trimUnders (l : List Char) (c : Char) (h : c ∈ trimUnders l) :
    c ∈ l := by
  unfold trimUnders at h
  obtain ⟨t1, ht1⟩ := dropWhile_decomp (fun c => c == '_') l
  obtain ⟨t2, ht2⟩ :=
    dropWhile_decomp (fun c => c == '_') (l.dropWhile (fun c => c == '_')).reverse
  rw [List.mem_reverse] at h
  have hm : c ∈ (l.dropWhile (fun c => c == '_')).reverse :=
    ht2 ▸ List.mem_append_right t2 h
  rw [List.mem_reverse] at hm
  exact ht1 ▸ List.mem_append_right t1 hm

theorem trimUnders_props (l : List Char) :
    (hasDU l = false → hasDU (trimUnders l) = false)
    ∧ (trimUnders l).head? ≠ some '_'
    ∧ (trimUnders l).getLast? ≠ some '_' := by
  obtain ⟨t1, ht1⟩ := dropWhile_decomp (fun c => c == '_') l
  obtain ⟨t2, ht2⟩ :=
    dropWhile_decomp (fun c => c == '_') (l.dropWhile (fun c => c == '_')).reverse
  have hd1eq : l.dropWhile (fun c => c == '_') =
      ((l.dropWhile (fun c => c == '_')).reverse.dropWhile
        (fun c => c == '_')).reverse ++ t2.reverse := by
    have h := congrArg List.reverse ht2
    rwa [List.reverse_reverse, List.reverse_append] at h
  refine ⟨?_, ?_, ?_⟩
  · intro hno
    have hd1 : hasDU (l.dropWhile (fun c => c == '_')) = false :=
      hasDU_append_left t1 _ (ht1 ▸ hno)
    exact hasDU_append_right _ _ (hd1eq ▸ hd1)
  · intro hh
    unfold trimUnders at hh
    rw [List.head?_reverse] at hh
    have hd2ne : (l.dropWhile (fun c => c == '_')).reverse.dropWhile
        (fun c => c == '_') ≠ [] := by
      intro he
      rw [he] at hh
      simp at hh
    have hgl : (l.dropWhile (fun c => c == '_')).reverse.getLast? = some '_' := by
      rw [ht2, List.getLast?_append_of_ne_nil _ hd2ne]
      exact hh
    have hhd : (l.dropWhile (fun c => c == '_')).head? = some '_' := by
      have h := List.head?_reverse (l.dropWhile (fun c => c == '_')).reverse
      rw [List.reverse_reverse] at h
      exact h.trans hgl
    have := dropWhile_head_not (fun c => c == '_') l '_' hhd
    simp at this
  · intro hh
    unfold trimUnders at hh
    have h := List.head?_reverse
      ((l.dropWhile (fun c => c == '_')).reverse.dropWhile (fun c => c == '_')).reverse
    rw [List.reverse_reverse] at h
    rw [← h] at hh
    have := dropWhile_head_not (fun c => c == '_')
      (l.dropWhile (fun c => c == '_')).reverse '_' hh
    simp at this

/-- C5 counterexample: the distinct relative paths a/b and a_b derive
the same identifier a_b, so derivation is not collision-free over all
pairs of distinct paths. -/
theorem pathToUniqueName_collision_counterexample :
    pathToUniqueName ("a/b") = pathToUniqueName ("a_b")
    ∧ ("a/b" : String) ≠ ("a_b")
    ∧ pathToUniqueName ("a/b") = ("a_b") := by
  refine ⟨rfl, by decide, rfl⟩

/-- C5 amended: identifier derivation is deterministic (a pure
function of the path) and performs the stated normalisation — every
path separator is replaced, no repeated underscore and no leading or
trailing underscore survives, and the sentinel root is substituted
for an empty result, so the identifier is never empty — but it is not
collision-free: distinct paths such as a/b and a_b derive the same
identifier. -/
theorem pathToUniqueName_wellformed (p : String) :
    pathToUniqueName p ≠ ""
    ∧ hasDU (pathToUniqueName p).toList = false
    ∧ (pathToUniqueName p).toList.head? ≠ some '_'
    ∧ (pathToUniqueName p).toList.getLast? ≠ some '_'
    ∧ ('/' : Char) ∉ (pathToUniqueName p).toList := by
  unfold pathToUniqueName
  by_cases h5 : (trimUnders (collapseIter
      ((trimLeadChars (trimLeadChars p.toList ['.', '/']) ['.']).map
        fun c => if c == '/' then '_' else c).length
      ((trimLeadChars (trimLeadChars p.toList ['.', '/']) ['.']).map
        fun c => if c == '/' then '_' else c))).isEmpty
  · simp only [h5, if_pos]
    refine ⟨by decide, by decide, by decide, by decide, by decide⟩
  · simp only [h5, if_neg, Bool.false_eq_true, not_false_eq_true]
    have hnodu : hasDU (collapseIter
        ((trimLeadChars (trimLeadChars p.toList ['.', '/']) ['.']).map
          fun c => if c == '/' then '_' else c).length
        ((trimLeadChars (trimLeadChars p.toList ['.', '/']) ['.']).map
          fun c => if c == '/' then '_' else c)) = false :=
      hasDU_collapseIter _ _ le_rfl
    have hprops := trimUnders_props (collapseIter
        ((trimLeadChars (trimLeadChars p.toList ['.', '/']) ['.']).map
          fun c => if c == '/' then '_' else c).length
        ((trimLeadChars (trimLeadChars p.toList ['.', '/']) ['.']).map
          fun c => if c == '/' then '_' else c))
    have hne : trimUnders (collapseIter
        ((trimLeadChars (trimLeadChars p.toList ['.', '/']) ['.']).map
          fun c => if c == '/' then '_' else c).length
        ((trimLeadChars (trimLeadChars p.toList ['.', '/']) ['.']).map
          fun c => if c == '/' then '_' else c)) ≠ [] := by
      intro he
      rw [he] at h5
      exact h5 rfl
    refine ⟨?_, hprops.1 hnodu, hprops.2.1, hprops.2.2, ?_⟩
    · intro he
      exact hne (congrArg String.data he)
    · intro hmem
      have h4 := mem_trimUnders _ '/' hmem
      have h3 := mem_collapseIter _ _ '/' h4
      rw [List.mem_map] at h3
      obtain ⟨a, _, ha⟩ := h3
      by_cases hsl : a = '/'
      · simp [hsl] at ha
      · simp [hsl] at ha

/-! Environment key derivation (toEnvKey / getEnvKey).  The byte scan
of the source coincides with this character-level model on ASCII
method and package names, which is what Go identifiers in this
repository are. -/

/-- ASCII uppercase test, the condition char in upper A to upper Z. -/
def isAsciiUpper (c : Char) : Bool := decide ('A' ≤ c) && decide (c ≤ 'Z')

/-- ASCII lowercase test, the condition nextChar in lower a to z. -/
def isAsciiLower (c : Char) : Bool := decide ('a' ≤ c) && decide (c ≤ 'z')

/-- ASCII effect of strings.ToUpper on one character. -/
def asciiUpperChar (c : Char) : Char :=
  if isAsciiLower c then Char.ofNat (c.toNat - 32) else c

/-- Lookahead of the scan: the source reads byte zero past the end of
the name, which is not a lowercase letter. -/
def nextIsLower : List Char → Bool
  | [] => false
  | c :: _ => isAsciiLower c

/-- The scanning loop of toEnvKey: an underscore is written before a
non-first uppercase character whose successor is lowercase. -/
def envKeyCore : Bool → List Char → List Char
  | _, [] => []
  | isFirst, c :: rest =>
    if isAsciiUpper c && !isFirst && nextIsLower rest then
      '_' :: c :: envKeyCore false rest
    else c :: envKeyCore false rest

/-- Model of toEnvKey: run the scan, then uppercase the result. -/
def toEnvKey (methodName : String) : String :=
  String.mk ((envKeyCore true methodName.toList).map asciiUpperChar)

/-- Model of getEnvKey: uppercased package identifier, an underscore,
then the derived method key. -/
def getEnvKey (packageName methodName : String) : String :=
  String.mk (packageName.toList.map asciiUpperChar) ++ "_" ++ toEnvKey methodName

/-- Position-based separator test written from the specification
text: an underscore belongs exactly before a character that is
uppercase, not the first, and immediately followed by a lowercase
character. -/
def envSepAt (cs : List Char) (i : Nat) : Bool :=
  decide (0 < i) && isAsciiUpper (cs.getD i ' ') && isAsciiLower (cs.getD (i + 1) ' ')

/-- Environment key derivation written from the specification text:
emit each character, preceded by an underscore exactly at the
positions selected by envSepAt, then uppercase. -/
def envKeySpec (methodName : String) : String :=
  String.mk (((List.range methodName.toList.length).flatMap fun i =>
    if envSepAt methodName.toList i then [('_' : Char), methodName.toList.getD i ' ']
    else [methodName.toList.getD i ' ']).map asciiUpperChar)

/-- Same emission with the non-first condition dropped, describing
the scan on every suffix after the first character. -/
def envKeyAllPos (cs : List Char) : List Char :=
  (List.range cs.length).flatMap fun i =>
    if isAsciiUpper (cs.getD i ' ') && isAsciiLower (cs.getD (i + 1) ' ')
    then [('_' : Char), cs.getD i ' '] else [cs.getD i ' ']

theorem toNat_ofNat_valid (n : Nat) (h : n.isValidChar) :
    (Char.ofNat n).toNat = n := by
  unfold Char.ofNat
  rw [dif_pos h]
  rfl

theorem lower_asciiUpperChar (c : Char) : isAsciiLower (asciiUpperChar c) = false := by
  unfold asciiUpperChar
  by_cases h : isAsciiLower c = true
  · rw [if_pos h]
    unfold isAsciiLower at h
    rw [Bool.and_eq_true, decide_eq_true_iff, decide_eq_true_iff] at h
    have h1 : (97 : Nat) ≤ c.toNat := h.1
    have h2 : c.toNat ≤ 122 := h.2
    have hv : (c.toNat - 32).isValidChar := Or.inl (by omega)
    have ht : (Char.ofNat (c.toNat - 32)).toNat = c.toNat - 32 := toNat_ofNat_valid _ hv
    unfold isAsciiLower
    have hlt : ¬ ('a' ≤ Char.ofNat (c.toNat - 32)) := by
      intro hle
      have : (97 : Nat) ≤ (Char.ofNat (c.toNat - 32)).toNat := hle
      omega
    rw [decide_eq_false hlt, Bool.false_and]
  · rw [if_neg h]
    exact Bool.not_eq_true _ ▸ h

theorem envKeyCore_fixed (l : List Char) (hl : ∀ c ∈ l, isAsciiLower c = false) :
    ∀ b, envKeyCore b l = l := by
  induction l with
  | nil => intro b; rfl
  | cons c rest ih =>
    intro b
    have hnext : nextIsLower rest = false := by
      match rest with
      | [] => rfl
      | x :: t => exact hl x (List.mem_cons_of_mem c (List.mem_cons_self x t))
    simp only [envKeyCore, hnext, Bool.and_false, Bool.false_eq_true, if_false]
    rw [ih fun q hq => hl q (List.mem_cons_of_mem c hq)]

theorem map_asciiUpperChar_fixed (l : List Char)
    (hl : ∀ c ∈ l, isAsciiLower c = false) : l.map asciiUpperChar = l := by
  induction l with
  | nil => rfl
  | cons c rest ih =>
    have hc : asciiUpperChar c = c := by
      unfold asciiUpperChar
      rw [if_neg]
      rw [hl c (List.mem_cons_self c rest)]
      simp
    rw [List.map_cons, hc, ih fun q hq => hl q (List.mem_cons_of_mem c hq)]

theorem range_flatMap_succ {α : Type} (n : Nat) (g : Nat → List α) :
    (List.range (n + 1)).flatMap g = g 0 ++ (List.range n).flatMap (fun i => g (i + 1)) := by
  rw [List.range_succ_eq_map]
  simp [List.flatMap_cons, List.flatMap_map]

theorem nextIsLower_getD (rest : List Char) :
    isAsciiLower (rest.getD 0 ' ') = nextIsLower rest := by
  cases rest with
  | nil => decide
  | cons x t => rfl

theorem envKeyCore_false_eq_allPos (cs : List Char) :
    envKeyCore false cs = envKeyAllPos cs := by
  induction cs with
  | nil => rfl
  | cons c rest ih =>
    unfold envKeyAllPos
    rw [List.length_cons, range_flatMap_succ]
    have htail : ((List.range rest.length).flatMap fun i =>
        if isAsciiUpper ((c :: rest).getD (i + 1) ' ')
            && isAsciiLower ((c :: rest).getD (i + 1 + 1) ' ')
        then [('_' : Char), (c :: rest).getD (i + 1) ' ']
        else [(c :: rest).getD (i + 1) ' ']) = envKeyAllPos rest := by
      unfold envKeyAllPos
      congr 1
    simp only [List.getD_cons_succ, List.getD_cons_zero] at htail ⊢
    rw [htail]
    by_cases hc : (isAsciiUpper c && isAsciiLower (rest.getD 0 ' ')) = true
    · have hc' : (isAsciiUpper c && !false && nextIsLower rest) = true := by
        rw [← nextIsLower_getD]
        simpa using hc
      simp only [envKeyCore, hc', if_pos, hc, ih]
      rfl
    · have hc' : ¬ ((isAsciiUpper c && !false && nextIsLower rest) = true) := by
        rw [← nextIsLower_getD]
        simpa using hc
      simp only [envKeyCore, if_neg hc', if_neg hc, ih]
      rfl

theorem envKeyCore_true_eq_spec (cs : List Char) :
    envKeyCore true cs = (List.range cs.length).flatMap fun i =>
      if envSepAt cs i then [('_' : Char), cs.getD i ' '] else [cs.getD i ' '] := by
  cases cs with
  | nil => rfl
  | cons c rest =>
    rw [List.length_cons, range_flatMap_succ]
    have hzero : envSepAt (c :: rest) 0 = false := by
      unfold envSepAt
      simp
    have htail : ((List.range rest.length).flatMap fun i =>
        if envSepAt (c :: rest) (i + 1)
        then [('_' : Char), (c :: rest).getD (i + 1) ' ']
        else [(c :: rest).getD (i + 1) ' ']) = envKeyAllPos rest := by
      unfold envKeyAllPos envSepAt
      congr 1
      funext i
      simp [List.getD_cons_succ]
    have hhead : envKeyCore true (c :: rest) = c :: envKeyCore false rest := by
      simp [envKeyCore]
    rw [hhead, envKeyCore_false_eq_allPos, hzero]
    simp only [if_false, Bool.false_eq_true, List.getD_cons_zero]
    rw [htail]
    rfl

/-- C6: environment-key derivation is deterministic (a pure function)
and idempotent on its own output, inserts an underscore exactly
before a non-first uppercase character immediately followed by a
lowercase character, uppercases the result, and prefixes the
uppercased package identifier plus an underscore; Host, SSLMode,
UserName, Port map to HOST, SSL_MODE, USER_NAME, PORT, with prefix
DB for the package identifier db. -/
theorem envKey_derivation :
    (∀ m : String, toEnvKey m = envKeySpec m)
    ∧ (∀ m : String, toEnvKey (toEnvKey m) = toEnvKey m)
    ∧ (∀ packageName methodName : String,
        getEnvKey packageName methodName =
          String.mk (packageName.toList.map asciiUpperChar) ++ "_" ++ toEnvKey methodName)
    ∧ toEnvKey ("Host") = "HOST"
    ∧ toEnvKey ("SSLMode") = "SSL_MODE"
    ∧ toEnvKey ("UserName") = "USER_NAME"
    ∧ toEnvKey ("Port") = "PORT"
    ∧ getEnvKey ("db") ("Host") = "DB_HOST"
    ∧ getEnvKey ("db") ("SSLMode") = "DB_SSL_MODE" := by
  refine ⟨?_, ?_, fun p m => rfl, by decide, by decide, by decide, by decide,
    by decide, by decide⟩
  · intro m
    unfold toEnvKey envKeySpec
    rw [envKeyCore_true_eq_spec]
  · intro m
    unfold toEnvKey
    have hlow : ∀ c ∈ (envKeyCore true m.toList).map asciiUpperChar,
        isAsciiLower c = false := by
      intro c hc
      rw [List.mem_map] at hc
      obtain ⟨a, _, ha⟩ := hc
      rw [← ha]
      exact lower_asciiUpperChar a
    have htl : (String.mk ((envKeyCore true m.toList).map asciiUpperChar)).toList
        = (envKeyCore true m.toList).map asciiUpperChar := rfl
    rw [htl, envKeyCore_fixed _ hlow true, map_asciiUpperChar_fixed _ hlow]

end GGConfig
